import Mathlib

/-!
Verification development for the structure-aware document transformation
pipeline of this repository (tokenizer, tree builder, section locator,
content replacer, serializer, template-reconstruction fallback) and for the
frontend form-submission handler.

The pipeline itself is not shipped as code in this repository: only its
design documents and callers are present.  Following the specification, the
pipeline components are therefore modelled here from the spec's words
(each such definition carries a doc comment beginning `Modelled from the
spec:`).  The frontend handler `handleSubmit` is embedded from the React
source (`src/unnamed/part_000`).

Strings are modelled as `List Char`; byte-exactness claims become equality
of character lists.
-/

namespace Berozgar

/-! Definitions: data model, tokenizer, tree builder, locator, replacer,
serializer, template path, frontend handler, and concrete sample inputs. -/

/-- Splits a character list at the first newline, keeping the newline on the
left side.  Used by the tokenizer for comment tokens, which span from the
comment marker to end-of-line inclusive of the line terminator. -/
def breakAfterNl : List Char → List Char × List Char
  | [] => ([], [])
  | c :: cs =>
    if c = '\n' then ([c], cs)
    else
      let p := breakAfterNl cs
      (c :: p.1, p.2)

/-- Modelled from the spec: lexical error, with the offending position and a
human-readable reason (§4.1, §7: `LexError{position, reason}`). -/
structure LexError where
  pos : Nat
  reason : String
deriving DecidableEq

/-- Modelled from the spec: token kinds (§3).  Every token carries its raw
span, the exact source substring it covers; `groupOpen`/`groupClose` spans
are the single brace characters. -/
inductive Tok where
  | commandStart (raw : List Char)
  | groupOpen
  | groupClose
  | envBegin (raw : List Char)
  | envEnd (raw : List Char)
  | comment (raw : List Char)
  | textRun (raw : List Char)
  | escape (raw : List Char)
deriving DecidableEq

/-- The raw span of a token: the exact source substring it covers. -/
def Tok.raw : Tok → List Char
  | .commandStart r => r
  | .groupOpen => ['{']
  | .groupClose => ['}']
  | .envBegin r => r
  | .envEnd r => r
  | .comment r => r
  | .textRun r => r
  | .escape r => r

/-- Concatenation of the raw spans of a token list, in order. -/
def joinRaws : List Tok → List Char
  | [] => []
  | t :: ts => t.raw ++ joinRaws ts

/-- A character with no lexical meaning of its own (not a backslash, brace
or comment marker); maximal runs of these become `textRun` tokens. -/
def plainChar (c : Char) : Bool :=
  !(c = '\\' || c = '{' || c = '}' || c = '%')

/-- Classification of a backslash-plus-letters run: `\begin` and `\end`
become environment delimiter tokens, every other command name a
`commandStart` token. -/
def cmdTok (name : List Char) : Tok :=
  if name = "begin".toList then Tok.envBegin ('\\' :: name)
  else if name = "end".toList then Tok.envEnd ('\\' :: name)
  else Tok.commandStart ('\\' :: name)

/-- Recogniser for comment tokens. -/
def Tok.isComment : Tok → Bool
  | .comment _ => true
  | _ => false

/-- A comment raw span contains no newline before its final character: the
token terminates at the first line terminator. -/
def commentSpanOk (raw : List Char) : Prop :=
  ∀ c ∈ raw.dropLast, c ≠ '\n'

/-- Modelled from the spec: the Tokenizer (§4.1).  Turns raw characters into
a lossless token stream.  A backslash followed by letters is a command
token (with `\begin` and `\end` classified as environment begin/end); a
backslash followed by a non-letter is a single `escape` token; a backslash
at end-of-input is a `LexError` (unterminated escape); `%` starts a comment
spanning to end-of-line inclusive of the terminator, or to end-of-input
(not an error); braces are group tokens; anything else accumulates into
maximal `textRun` tokens.  Positions are absolute character offsets (the
spec's line/column pair is a presentation detail).  The `fuel` argument
only bounds recursion and is always supplied sufficiently by `lex`. -/
def lexGo : Nat → Nat → List Char → Except LexError (List Tok)
  | 0, pos, _ => .error ⟨pos, "tokenizer out of fuel"⟩
  | _ + 1, _, [] => .ok []
  | fuel + 1, pos, c :: rest =>
    if c = '\\' then
      match rest with
      | [] => .error ⟨pos, "unterminated escape at end of input"⟩
      | d :: rest2 =>
        if d.isAlpha then
          (cmdTok (rest.takeWhile Char.isAlpha) :: ·) <$>
            lexGo fuel (pos + 1 + (rest.takeWhile Char.isAlpha).length)
              (rest.dropWhile Char.isAlpha)
        else (Tok.escape ['\\', d] :: ·) <$> lexGo fuel (pos + 2) rest2
    else if c = '{' then (Tok.groupOpen :: ·) <$> lexGo fuel (pos + 1) rest
    else if c = '}' then (Tok.groupClose :: ·) <$> lexGo fuel (pos + 1) rest
    else if c = '%' then
      (Tok.comment (c :: (breakAfterNl rest).1) :: ·) <$>
        lexGo fuel (pos + 1 + (breakAfterNl rest).1.length) (breakAfterNl rest).2
    else
      (Tok.textRun (c :: rest.takeWhile plainChar) :: ·) <$>
        lexGo fuel (pos + 1 + (rest.takeWhile plainChar).length) (rest.dropWhile plainChar)

/-- Modelled from the spec: the Tokenizer entry point (§4.1): raw input →
ordered token sequence, or a `LexError`. -/
def lex (pos : Nat) (cs : List Char) : Except LexError (List Tok) :=
  lexGo (cs.length + 1) pos cs

/-- Modelled from the spec: tree node (§3).  Kinds: TextRun, Comment,
Command (also covering escapes, retained opaquely), Group,
EnvironmentBlock, and Section.  A Section carries its nesting level, its
normalized-comparison title source, its raw header span (the command
invocation, never eligible for replacement), a dirty flag, the stored
replacement text (meaningful only when dirty; the spec's "single opaque
TextRun body" is this field), and its ordered children.  Document and
Preamble are represented by the `Doc` wrapper: the leading non-Section
children of a `Doc` are its preamble content. -/
inductive Node where
  | textRun (raw : List Char)
  | comment (raw : List Char)
  | command (raw : List Char)
  | group (children : List Node)
  | envBlock (beginRaw : List Char) (children : List Node) (endRaw : List Char)
  | sec (level : Nat) (title : List Char) (header : List Char)
        (dirty : Bool) (repl : List Char) (children : List Node)

/-- Modelled from the spec: the Document root owning the whole tree. -/
structure Doc where
  children : List Node

/-- Whether a node is a Section. -/
def Node.isSec : Node → Bool
  | .sec .. => true
  | _ => false

/-- The title source text of a Section node (empty for other kinds). -/
def Node.titleOf : Node → List Char
  | .sec _ ti _ _ _ _ => ti
  | _ => []

/-- The raw header span of a Section node (empty for other kinds). -/
def Node.headerOf : Node → List Char
  | .sec _ _ h _ _ _ => h
  | _ => []

mutual
/-- Modelled from the spec: the Serializer (§4.5), one ordered pre-order
traversal.  A non-dirty node emits its exact original bytes (leaves emit
their raw span; groups and environments re-emit their delimiters around
their serialized children; a clean Section emits its header span followed
by its serialized children).  A dirty Section emits its header span
followed by the stored replacement text on its own line (as fixed by the
spec's concrete scenario A), followed by its remaining (Section) children.
Non-Section nodes are never dirty. -/
def serializeNode : Node → List Char
  | .textRun r => r
  | .comment r => r
  | .command r => r
  | .group cs => '{' :: (serializeNodes cs ++ ['}'])
  | .envBlock b cs e => b ++ (serializeNodes cs ++ e)
  | .sec _ _ header d repl cs =>
    if d then header ++ '\n' :: (repl ++ '\n' :: serializeNodes cs)
    else header ++ serializeNodes cs

/-- Serialization of a list of sibling nodes, in order. -/
def serializeNodes : List Node → List Char
  | [] => []
  | n :: ns => serializeNode n ++ serializeNodes ns
end

/-- Modelled from the spec: serializing a Document emits its children in
document order. -/
def serializeDoc (d : Doc) : List Char :=
  serializeNodes d.children

/-- Modelled from the spec: structural error kinds (§4.2, §7). -/
inductive SErrKind where
  | unbalancedGroup
  | unterminatedEnvironment
deriving DecidableEq

/-- Modelled from the spec: `StructuralError{kind}` (§7); the position
field is omitted in this model (no claim under check concerns it). -/
structure StructuralError where
  kind : SErrKind
deriving DecidableEq

/-- Modelled from the spec: the nesting rank of a sectioning command's raw
span (section = 1, subsection = 2, subsubsection = 3); `none` for every
other command, which is retained as an opaque Command node. -/
def secLevel (raw : List Char) : Option Nat :=
  if raw = "\\section".toList then some 1
  else if raw = "\\subsection".toList then some 2
  else if raw = "\\subsubsection".toList then some 3
  else none

/-- Modelled from the spec: content assembly inside the Tree Builder
(§4.2).  Parses a maximal run of non-sectioning items — text runs,
comments, escapes and unknown commands (kept opaque), groups and
environment blocks assembled recursively — and stops, leaving the rest,
at a group close, an environment end, end-of-input, or (when not inside a
group or environment, where sectioning commands are opaque) a sectioning
command.  An unclosed group is an UnbalancedGroup error; an environment
whose end is missing is an UnterminatedEnvironment error.  `fuel` only
bounds recursion and is supplied sufficiently by `parseDoc`. -/
def parseItems : Nat → Bool → List Tok → Except StructuralError (List Node × List Tok)
  | 0, _, _ => .error ⟨.unbalancedGroup⟩
  | _ + 1, _, [] => .ok ([], [])
  | fuel + 1, inG, t :: ts =>
    match t with
    | .groupClose => .ok ([], t :: ts)
    | .envEnd r => .ok ([], .envEnd r :: ts)
    | .textRun r =>
      (fun p => (Node.textRun r :: p.1, p.2)) <$> parseItems fuel inG ts
    | .comment r =>
      (fun p => (Node.comment r :: p.1, p.2)) <$> parseItems fuel inG ts
    | .escape r =>
      (fun p => (Node.command r :: p.1, p.2)) <$> parseItems fuel inG ts
    | .groupOpen =>
      match parseItems fuel true ts with
      | .error e => .error e
      | .ok (cs, rest) =>
        match rest with
        | .groupClose :: rest2 =>
          (fun p => (Node.group cs :: p.1, p.2)) <$> parseItems fuel inG rest2
        | _ => .error ⟨.unbalancedGroup⟩
    | .envBegin r =>
      match parseItems fuel true ts with
      | .error e => .error e
      | .ok (cs, rest) =>
        match rest with
        | .envEnd er :: rest2 =>
          (fun p => (Node.envBlock r cs er :: p.1, p.2)) <$> parseItems fuel inG rest2
        | _ => .error ⟨.unterminatedEnvironment⟩
    | .commandStart r =>
      if inG then
        (fun p => (Node.command r :: p.1, p.2)) <$> parseItems fuel inG ts
      else
        match secLevel r with
        | some _ => .ok ([], .commandStart r :: ts)
        | none => (fun p => (Node.command r :: p.1, p.2)) <$> parseItems fuel inG ts

/-- Error-propagating sequencing for parser results. -/
def exceptBind {ε α β : Type} : Except ε α → (α → Except ε β) → Except ε β
  | .error e, _ => .error e
  | .ok a, f => f a

/-- Modelled from the spec: parsing the sectioning command's title argument
(§4.2).  After a sectioning command of raw span `r`, a brace-delimited
title group is assembled recursively; the normalized-comparison title
source is its serialized interior, and the raw header span is the command
invocation together with the braced argument.  A sectioning command with
no brace-delimited argument keeps just its own raw span as header and has
an empty title.  An unclosed title group is an UnbalancedGroup error. -/
def parseHeader (fuel : Nat) (r : List Char) (ts : List Tok) :
    Except StructuralError ((List Char × List Char) × List Tok) :=
  match ts with
  | .groupOpen :: ts2 =>
    match parseItems fuel true ts2 with
    | .error e => .error e
    | .ok (tns, r1) =>
      match r1 with
      | .groupClose :: r2 =>
        .ok ((serializeNodes tns, r ++ '{' :: (serializeNodes tns ++ ['}'])), r2)
      | _ => .error ⟨.unbalancedGroup⟩
  | _ => .ok (([], r), ts)

/-- Modelled from the spec: Section assembly inside the Tree Builder
(§4.2), the stack discipline expressed recursively.  Parses a maximal run
of sibling Sections of rank at least `lvl`: each sectioning command of
rank `l ≥ lvl` opens a Section whose header span comes from `parseHeader`,
whose body is the following content (`parseItems`) and then all Sections
of rank strictly greater than `l`, and which is followed by its
rank-`≥ lvl` siblings.  Stops, leaving the rest, at end-of-input, any
non-sectioning token, or a sectioning command of rank below `lvl`. -/
def parseSecs : Nat → Nat → List Tok → Except StructuralError (List Node × List Tok)
  | 0, _, _ => .error ⟨.unbalancedGroup⟩
  | _ + 1, _, [] => .ok ([], [])
  | fuel + 1, lvl, t :: ts =>
    match t with
    | .commandStart r =>
      match secLevel r with
      | none => .ok ([], .commandStart r :: ts)
      | some l =>
        if l < lvl then .ok ([], .commandStart r :: ts)
        else
          exceptBind (parseHeader fuel r ts) fun th =>
          exceptBind (parseItems fuel false th.2) fun tc =>
          exceptBind (parseSecs fuel (l + 1) tc.2) fun tsub =>
          (fun p =>
            (Node.sec l th.1.1 th.1.2 false [] (tc.1 ++ tsub.1) :: p.1, p.2)) <$>
            parseSecs fuel lvl tsub.2
    | _ => .ok ([], t :: ts)

/-- Modelled from the spec: the Tree Builder entry point (§4.2): token
sequence → Document tree, or a StructuralError.  Leading content becomes
the preamble children, then the top-level Sections; any tokens left over
are an unmatched group close or environment end and are fatal. -/
def parseDoc (ts : List Tok) : Except StructuralError Doc :=
  exceptBind (parseItems (4 * ts.length + 8) false ts) fun pre =>
  exceptBind (parseSecs (4 * ts.length + 8) 1 pre.2) fun secs =>
  match secs.2 with
  | [] => .ok ⟨pre.1 ++ secs.1⟩
  | .envEnd _ :: _ => .error ⟨.unterminatedEnvironment⟩
  | _ => .error ⟨.unbalancedGroup⟩

/-- Modelled from the spec: combined parse errors of the structured path
(§7): a `LexError` from the Tokenizer or a `StructuralError` from the Tree
Builder. -/
inductive PErr where
  | lexE (e : LexError)
  | structE (e : StructuralError)
deriving DecidableEq

/-- Re-tags the error of a fallible result. -/
def mapErr {ε ε' α : Type} (f : ε → ε') : Except ε α → Except ε' α
  | .error e => .error (f e)
  | .ok a => .ok a

/-- Modelled from the spec: the structured parse path (§2): Tokenizer then
Tree Builder. -/
def structuredParse (x : List Char) : Except PErr Doc :=
  exceptBind (mapErr PErr.lexE (lex 0 x)) fun ts =>
    mapErr PErr.structE (parseDoc ts)

mutual
/-- A node is clean when no Section in it is marked dirty. -/
def cleanN : Node → Bool
  | .sec _ _ _ d _ cs => !d && cleanL cs
  | .group cs => cleanL cs
  | .envBlock _ cs _ => cleanL cs
  | _ => true

/-- A node list is clean when all its nodes are. -/
def cleanL : List Node → Bool
  | [] => true
  | n :: ns => cleanN n && cleanL ns
end

/-- Whether a document is clean (freshly parsed, no replacements yet). -/
def cleanD (d : Doc) : Bool := cleanL d.children

/-- Group-balance contribution of one token. -/
def gval : Tok → Int
  | .groupOpen => 1
  | .groupClose => -1
  | _ => 0

/-- Environment-balance contribution of one token. -/
def eBalTok : Tok → Int
  | .envBegin _ => 1
  | .envEnd _ => -1
  | _ => 0

/-- Net group-brace balance of a token stream. -/
def gbal : List Tok → Int
  | [] => 0
  | t :: ts => gval t + gbal ts

/-- Net environment begin/end balance of a token stream. -/
def ebal : List Tok → Int
  | [] => 0
  | t :: ts => eBalTok t + ebal ts

mutual
/-- Modelled from the spec: `replaceBody` (§4.4), addressed by a child-index
path from the target node.  At the target Section (`[]` path) the current
non-Section body children are discarded and the replacement text is stored
verbatim (the spec's single opaque TextRun body) with the node marked
dirty; per §8 ("Nesting preservation") the child Sections are kept, with
their header spans and subtrees untouched.  On a non-Section target or an
invalid path the tree is unchanged (the precondition excludes Preamble and
the Document root: paths address nodes, and the replacement only ever
fires on a Section constructor). -/
def replaceBodyN : List Nat → List Char → Node → Node
  | [], t, .sec l ti h _ _ cs => .sec l ti h true t (cs.filter Node.isSec)
  | [], _, n => n
  | i :: p, t, .sec l ti h d rp cs => .sec l ti h d rp (replaceBodyL i p t cs)
  | i :: p, t, .group cs => .group (replaceBodyL i p t cs)
  | i :: p, t, .envBlock b cs e => .envBlock b (replaceBodyL i p t cs) e
  | _ :: _, _, n => n

/-- Recursion of `replaceBodyN` through a child list at a given index. -/
def replaceBodyL : Nat → List Nat → List Char → List Node → List Node
  | _, _, _, [] => []
  | 0, p, t, n :: ns => replaceBodyN p t n :: ns
  | i + 1, p, t, n :: ns => n :: replaceBodyL i p t ns
end

/-- Modelled from the spec: `replaceBody` on a Document tree, addressed by
a child-index path (nonempty: the Document root is not replaceable). -/
def replaceDoc : List Nat → List Char → Doc → Doc
  | [], _, d => d
  | i :: p, t, d => ⟨replaceBodyL i p t d.children⟩

mutual
/-- Whether a child-index path denotes a Section node of the subtree. -/
def secPathN : List Nat → Node → Bool
  | [], n => n.isSec
  | i :: p, .sec _ _ _ _ _ cs => secPathL i p cs
  | i :: p, .group cs => secPathL i p cs
  | i :: p, .envBlock _ cs _ => secPathL i p cs
  | _ :: _, _ => false

/-- Path lookup of `secPathN` through a child list. -/
def secPathL : Nat → List Nat → List Node → Bool
  | _, _, [] => false
  | 0, p, n :: _ => secPathN p n
  | i + 1, p, _ :: ns => secPathL i p ns
end

/-- Whether a child-index path denotes a Section node of the document. -/
def secPathD : List Nat → Doc → Bool
  | [], _ => false
  | i :: p, d => secPathL i p d.children

mutual
/-- The children of the node at a child-index path (empty list when the
path is invalid or the node has no children). -/
def childrenAtN : List Nat → Node → List Node
  | [], .sec _ _ _ _ _ cs => cs
  | [], .group cs => cs
  | [], .envBlock _ cs _ => cs
  | [], _ => []
  | i :: p, .sec _ _ _ _ _ cs => childrenAtL i p cs
  | i :: p, .group cs => childrenAtL i p cs
  | i :: p, .envBlock _ cs _ => childrenAtL i p cs
  | _ :: _, _ => []

/-- Path lookup of `childrenAtN` through a child list. -/
def childrenAtL : Nat → List Nat → List Node → List Node
  | _, _, [] => []
  | 0, p, n :: _ => childrenAtN p n
  | i + 1, p, _ :: ns => childrenAtL i p ns
end

/-- The children of the node at a child-index path of a document. -/
def childrenAtD : List Nat → Doc → List Node
  | [], d => d.children
  | i :: p, d => childrenAtL i p d.children

/-- Whitespace for the purpose of name normalization. -/
def wsChar (c : Char) : Bool :=
  c = ' ' || c = '\n' || c = '\t' || c = '\r'

/-- Collapses internal whitespace runs into single spaces; the `pend` flag
records whether a separating space is owed before the next word. -/
def squashWs : List Char → Bool → List Char
  | [], _ => []
  | c :: cs, pend =>
    if wsChar c then squashWs cs true
    else if pend then ' ' :: c :: squashWs cs false
    else c :: squashWs cs false

/-- Modelled from the spec: name normalization for the Section Locator
(§4.3): case-insensitive, whitespace-normalized comparison keys — lower
case, leading/trailing whitespace removed, internal runs collapsed. -/
def normalizeName (s : List Char) : List Char :=
  squashWs ((s.map Char.toLower).dropWhile wsChar) false

mutual
/-- All Section nodes of a subtree, in document (pre-order) order. -/
def secsN : Node → List Node
  | n@(.sec _ _ _ _ _ cs) => n :: secsL cs
  | .group cs => secsL cs
  | .envBlock _ cs _ => secsL cs
  | _ => []

/-- All Section nodes of a child list, in document order. -/
def secsL : List Node → List Node
  | [] => []
  | n :: ns => secsN n ++ secsL ns
end

/-- All Section nodes of a document, in document order. -/
def sectionsInOrder (d : Doc) : List Node :=
  secsL d.children

mutual
/-- Modelled from the spec: the recursive matcher behind `findByName`
(§4.3), collecting, in document order, every Section whose normalized
title equals the (already normalized) query. -/
def findN (nm : List Char) : Node → List Node
  | n@(.sec _ ti _ _ _ cs) =>
    (if normalizeName ti = nm then [n] else []) ++ findL nm cs
  | .group cs => findL nm cs
  | .envBlock _ cs _ => findL nm cs
  | _ => []

/-- `findN` over a child list, in document order. -/
def findL (nm : List Char) : List Node → List Node
  | [] => []
  | n :: ns => findN nm n ++ findL nm ns
end

/-- Modelled from the spec: `findByName` (§4.3): every Section whose title
matches the query under case-insensitive, whitespace-normalized
comparison, in document order. -/
def findByName (d : Doc) (nm : List Char) : List Node :=
  findL (normalizeName nm) d.children

mutual
/-- Child-index path of the first (document-order) Section of a subtree
whose normalized title equals the (already normalized) query. -/
def findPathN (nm : List Char) : Node → Option (List Nat)
  | .sec _ ti _ _ _ cs =>
    if normalizeName ti = nm then some [] else findPathL nm 0 cs
  | .group cs => findPathL nm 0 cs
  | .envBlock _ cs _ => findPathL nm 0 cs
  | _ => none

/-- `findPathN` over a child list starting at index `i`. -/
def findPathL (nm : List Char) : Nat → List Node → Option (List Nat)
  | _, [] => none
  | i, n :: ns =>
    match findPathN nm n with
    | some p => some (i :: p)
    | none => findPathL nm (i + 1) ns
end

/-- The documented default for consumers of `findByName`: the child-index
path of the first match in document order. -/
def firstPathByName (d : Doc) (nm : List Char) : Option (List Nat) :=
  findPathL (normalizeName nm) 0 d.children

/-- Modelled from the spec: the fixed single-slot template document (§4.6,
scenario C): a pre-built tree whose designated slot node behaves like a
Section with one body holding the `\x7b\x7bBODY\x7d\x7d` marker; the slot
is filled through the ordinary `replaceBody` and rendered by the same
Serializer. -/
def templateDoc : Doc :=
  ⟨[Node.sec 1 ("body".toList) [] false []
      [Node.textRun ("\x7b\x7bBODY\x7d\x7d".toList)]]⟩

/-- Modelled from the spec: path selection of the transformation pipeline
(§2, §7).  The structured input is parsed; on success the structured path
continues (body replacements are applied by the callers modelled in the
replacement lemmas).  On a parse failure of either kind the pipeline does
not abort: it falls back to the Template Reconstruction Path, filling the
fixed template's single slot with the generated text and rendering it with
the same Serializer. -/
def pipeline (x : List Char) (gen : List Char) : List Char :=
  match structuredParse x with
  | .ok d => serializeDoc d
  | .error _ => serializeDoc (replaceDoc [0] gen templateDoc)

/-- Frontend form state touched by `handleSubmit` (src/unnamed/part_000).
Selected files are represented by their names. -/
structure FormState where
  resumeFiles : List String
  jobDescText : String
  jobDescFiles : List String
  jobDescUrl : String
  expFiles : List String
  readmeFiles : List String
  resumeError : Option String
  jobDescError : Option String
  formError : Option String
  loading : Bool
  uploadProgress : Nat
deriving DecidableEq

/-- An HTTP request dispatched by `handleSubmit`: the JD-from-URL helper
call, or the main multipart submission whose form data is the ordered list
of appended (field, value) entries. -/
inductive Request where
  | jdFromUrl (url : String)
  | submit (form : List (String × String))
deriving DecidableEq

/-- The resume-validation error message set by `handleSubmit`. -/
def resumeErrMsg : String := "Please upload at least one resume file."

/-- The multiple-JD-inputs error message set by `handleSubmit`. -/
def jdModesErrMsg : String :=
  "Please provide only one job description input (file, URL, or text). Clear the others."

/-- Embedded from `handleSubmit` in src/unnamed/part_000: clears the three
error messages; if no resume file is selected, sets the resume error and
returns; if more than one job-description input mode is in use (file, URL,
text), sets the JD error and returns; otherwise enters the loading state,
resets the upload progress, and dispatches the requests: the JD-from-URL
call when a URL is given, then the multipart submission containing every
resume file under `resume_files`, only the FIRST job-description file
under `jd_file` (or the JD text under `jd_text`; nothing in URL mode),
every experience file under `exp_files` and every readme file under
`readme_files`.  The model covers the synchronous part up to dispatch;
response handling (alerts, clearing `loading`) and the URL-fetch failure
path are beyond the claims under check. -/
def handleSubmit (s : FormState) : FormState × List Request :=
  let s := { s with jobDescError := none, resumeError := none, formError := none }
  if s.resumeFiles.length = 0 then
    ({ s with resumeError := some resumeErrMsg }, [])
  else
    let jdModes := ([!s.jobDescFiles.isEmpty, !s.jobDescUrl.isEmpty,
      !s.jobDescText.isEmpty].filter (fun b => b)).length
    if 1 < jdModes then
      ({ s with jobDescError := some jdModesErrMsg }, [])
    else
      let s := { s with loading := true, uploadProgress := 0 }
      let urlReqs := if s.jobDescUrl.isEmpty then [] else [Request.jdFromUrl s.jobDescUrl]
      let jdPart : List (String × String) :=
        match s.jobDescFiles with
        | f :: _ => [("jd_file", f)]
        | [] => if s.jobDescText.isEmpty then [] else [("jd_text", s.jobDescText)]
      let form :=
        s.resumeFiles.map (fun f => ("resume_files", f)) ++ jdPart ++
        s.expFiles.map (fun f => ("exp_files", f)) ++
        s.readmeFiles.map (fun f => ("readme_files", f))
      (s, urlReqs ++ [Request.submit form])

/-- Whether a fallible result is a success. -/
def exceptIsOk {ε α : Type} : Except ε α → Bool
  | .ok _ => true
  | .error _ => false

/-- The spec's concrete scenario A input. -/
def sampleA : List Char :=
  "\\section{Experience}\nOld text\n\\section{Education}\nSchool".toList

/-- The spec's concrete scenario A expected output. -/
def sampleAOut : List Char :=
  "\\section{Experience}\nNew text\n\\section{Education}\nSchool".toList

/-- The spec's concrete scenario B input (unterminated group). -/
def sampleB : List Char := "\\section{Experience}\n\x7bUnclosed".toList

/-- The spec's duplicate-names scenario input. -/
def sampleDup : List Char := "\\section{Skills}\nA\n\\section{Skills}\nB".toList

/-- A frontend state with no resume files but a previously displayed
job-description error and form error. -/
def emptyResumeState : FormState :=
  { resumeFiles := [], jobDescText := "", jobDescFiles := [], jobDescUrl := "",
    expFiles := [], readmeFiles := [], resumeError := none,
    jobDescError := some "old JD error", formError := some "old form error",
    loading := false, uploadProgress := 37 }

/-- The multipart form built by `handleSubmit` in JD-file mode with first
job-description file `f`: every resume file, the first JD file only, every
experience file, every readme file, in append order. -/
def submittedForm (s : FormState) (f : String) : List (String × String) :=
  s.resumeFiles.map (fun r => ("resume_files", r)) ++
  ("jd_file", f) :: (s.expFiles.map (fun r => ("exp_files", r)) ++
    s.readmeFiles.map (fun r => ("readme_files", r)))

/-- A frontend state with two JD files selected alongside resumes and
supporting documents. -/
def twoJdState : FormState :=
  { resumeFiles := ["resume1.tex", "resume2.pdf"], jobDescText := "",
    jobDescFiles := ["jd1.pdf", "jd2.pdf"], jobDescUrl := "",
    expFiles := ["exp.pdf"], readmeFiles := ["readme.md"], resumeError := none,
    jobDescError := none, formError := none, loading := false,
    uploadProgress := 0 }

/-! Theorems: helper lemmas, component specifications, and the claim
theorems with their witnesses. -/

theorem breakAfterNl_append (cs : List Char) :
    (breakAfterNl cs).1 ++ (breakAfterNl cs).2 = cs := by
  induction cs with
  | nil => simp [breakAfterNl]
  | cons c cs ih =>
    by_cases h : c = '\n' <;> simp [breakAfterNl, h, ih]

theorem breakAfterNl_snd_length (cs : List Char) :
    (breakAfterNl cs).2.length ≤ cs.length := by
  induction cs with
  | nil => simp [breakAfterNl]
  | cons c cs ih =>
    by_cases h : c = '\n' <;> simp [breakAfterNl, h]
    omega

/-- No character of the left part of `breakAfterNl`, except possibly the
last one, is a newline. -/
theorem breakAfterNl_no_inner_nl (cs : List Char) :
    ∀ c ∈ (breakAfterNl cs).1.dropLast, c ≠ '\n' := by
  induction cs with
  | nil => simp [breakAfterNl]
  | cons c cs ih =>
    by_cases h : c = '\n'
    · simp [breakAfterNl, h]
    · intro x hx
      simp only [breakAfterNl, h, if_false] at hx
      rcases Decidable.em ((breakAfterNl cs).1 = []) with he | he
      · simp [he] at hx
      · rw [List.dropLast_cons_of_ne_nil he] at hx
        rcases List.mem_cons.mp hx with rfl | hx
        · exact h
        · exact ih x hx

/-- If splitting found a newline (something remains on the right), the left
part ends with that newline. -/
theorem breakAfterNl_ends_nl (cs : List Char) (h : (breakAfterNl cs).2 ≠ []) :
    (breakAfterNl cs).1.getLast? = some '\n' := by
  induction cs with
  | nil => simp [breakAfterNl] at h
  | cons c cs ih =>
    by_cases hc : c = '\n'
    · simp [breakAfterNl, hc]
    · simp only [breakAfterNl, hc, if_false] at h ⊢
      have h2 := ih h
      have hne : (breakAfterNl cs).1 ≠ [] := by
        intro hnil; rw [hnil] at h2; simp at h2
      rw [List.getLast?_cons, h2]
      rfl

theorem exceptMap_ok {ε α β : Type} (f : α → β) (r : Except ε α) (b : β)
    (h : (f <$> r) = Except.ok b) : ∃ a, r = Except.ok a ∧ f a = b := by
  cases r with
  | error e => simp [Except.map] at h
  | ok a =>
    refine ⟨a, rfl, ?_⟩
    simpa [Except.map] using h

theorem cmdTok_raw (name : List Char) : (cmdTok name).raw = '\\' :: name := by
  unfold cmdTok
  split
  · rfl
  · split <;> rfl

theorem cmdTok_isComment (name : List Char) : (cmdTok name).isComment = false := by
  unfold cmdTok
  split
  · rfl
  · split <;> rfl

theorem length_dropWhile_le (p : Char → Bool) (l : List Char) :
    (l.dropWhile p).length ≤ l.length :=
  (List.dropWhile_sublist (l := l) (p := p)).length_le

theorem exceptMap_error {ε α β : Type} (f : α → β) (r : Except ε α) (e : ε)
    (h : (f <$> r) = Except.error e) : r = Except.error e := by
  cases r with
  | error e' => simpa [Except.map] using h
  | ok a => simp [Except.map] at h

/-- Tokenizer losslessness: when lexing succeeds, the raw spans of the
resulting tokens concatenate, in order, to exactly the input. -/
theorem lexGo_lossless (fuel : Nat) :
    ∀ (pos : Nat) (cs : List Char) (ts : List Tok),
      lexGo fuel pos cs = .ok ts → joinRaws ts = cs := by
  induction fuel with
  | zero => intro pos cs ts h; simp [lexGo] at h
  | succ f ih =>
    intro pos cs ts h
    match cs with
    | [] =>
      simp only [lexGo] at h
      cases h
      rfl
    | c :: rest =>
      simp only [lexGo] at h
      by_cases hc : c = '\\'
      · simp only [hc, if_true] at h
        match rest with
        | [] => simp at h
        | d :: rest2 =>
          by_cases hd : d.isAlpha
          · simp only [hd, if_true] at h
            obtain ⟨ts', hts', rfl⟩ := exceptMap_ok _ _ _ h
            rw [joinRaws, ih _ _ _ hts', cmdTok_raw, hc]
            simp [List.takeWhile_append_dropWhile]
          · simp only [hd, Bool.false_eq_true, if_false] at h
            obtain ⟨ts', hts', rfl⟩ := exceptMap_ok _ _ _ h
            rw [joinRaws, ih _ _ _ hts', hc]
            rfl
      · simp only [hc, if_false] at h
        by_cases hob : c = '{'
        · simp only [hob, if_true] at h
          obtain ⟨ts', hts', rfl⟩ := exceptMap_ok _ _ _ h
          rw [joinRaws, ih _ _ _ hts', hob]
          rfl
        · simp only [hob, if_false] at h
          by_cases hcb : c = '}'
          · simp only [hcb, if_true] at h
            obtain ⟨ts', hts', rfl⟩ := exceptMap_ok _ _ _ h
            rw [joinRaws, ih _ _ _ hts', hcb]
            rfl
          · simp only [hcb, if_false] at h
            by_cases hpc : c = '%'
            · simp only [hpc, if_true] at h
              obtain ⟨ts', hts', rfl⟩ := exceptMap_ok _ _ _ h
              rw [joinRaws, ih _ _ _ hts', hpc]
              simp [Tok.raw, breakAfterNl_append]
            · simp only [hpc, if_false] at h
              obtain ⟨ts', hts', rfl⟩ := exceptMap_ok _ _ _ h
              rw [joinRaws, ih _ _ _ hts']
              simp [Tok.raw, List.takeWhile_append_dropWhile]

/-- The tokenizer fails only when the input ends in an unterminated escape:
the final character is a bare backslash, and the reported position is that
of the final character. -/
theorem lexGo_error_char (fuel : Nat) :
    ∀ (pos : Nat) (cs : List Char) (e : LexError), cs.length < fuel →
      lexGo fuel pos cs = .error e →
      cs.getLast? = some '\\' ∧ e.pos + 1 = pos + cs.length ∧
        e.reason = "unterminated escape at end of input" := by
  induction fuel with
  | zero => intro pos cs e hlen h; omega
  | succ f ih =>
    intro pos cs e hlen h
    match cs with
    | [] => simp [lexGo] at h
    | c :: rest =>
      simp only [lexGo] at h
      simp only [List.length_cons] at hlen
      by_cases hc : c = '\\'
      · simp only [hc, if_true] at h
        match rest with
        | [] =>
          cases h
          simp [hc]
        | d :: rest2 =>
          by_cases hd : d.isAlpha
          · simp only [hd, if_true] at h
            have h' := exceptMap_error _ _ _ h
            have hle := length_dropWhile_le Char.isAlpha (d :: rest2)
            have hres := ih _ _ _ (by omega) h'
            have htd : (d :: rest2).takeWhile Char.isAlpha ++
                (d :: rest2).dropWhile Char.isAlpha = d :: rest2 :=
              List.takeWhile_append_dropWhile _ _
            have hne : (d :: rest2).dropWhile Char.isAlpha ≠ [] := by
              intro hnil
              rw [hnil] at hres
              simp at hres
            constructor
            · rw [show (c :: d :: rest2) = (c :: (d :: rest2).takeWhile Char.isAlpha) ++
                  (d :: rest2).dropWhile Char.isAlpha by simp [htd]]
              rw [List.getLast?_append_of_ne_nil _ hne]
              exact hres.1
            · have hlen2 : ((d :: rest2).takeWhile Char.isAlpha).length +
                  ((d :: rest2).dropWhile Char.isAlpha).length = (d :: rest2).length := by
                rw [← List.length_append, htd]
              refine ⟨?_, hres.2.2⟩
              have := hres.2.1
              simp only [List.length_cons] at hlen2 ⊢
              omega
          · simp only [hd, Bool.false_eq_true, if_false] at h
            have h' := exceptMap_error _ _ _ h
            have hres := ih _ _ _ (by simp only [List.length_cons] at hlen; omega) h'
            have hne : rest2 ≠ [] := by
              intro hnil
              rw [hnil] at hres
              simp at hres
            constructor
            · rw [show (c :: d :: rest2) = [c, d] ++ rest2 by simp]
              rw [List.getLast?_append_of_ne_nil _ hne]
              exact hres.1
            · have := hres.2.1
              refine ⟨by simp; omega, hres.2.2⟩
      · simp only [hc, if_false] at h
        by_cases hob : c = '{'
        · simp only [hob, if_true] at h
          have h' := exceptMap_error _ _ _ h
          have hres := ih _ _ _ (by omega) h'
          have hne : rest ≠ [] := by
            intro hnil
            rw [hnil] at hres
            simp at hres
          refine ⟨?_, by have := hres.2.1; simp only [List.length_cons]; omega, hres.2.2⟩
          rw [show (c :: rest) = [c] ++ rest by simp, List.getLast?_append_of_ne_nil _ hne]
          exact hres.1
        · simp only [hob, if_false] at h
          by_cases hcb : c = '}'
          · simp only [hcb, if_true] at h
            have h' := exceptMap_error _ _ _ h
            have hres := ih _ _ _ (by omega) h'
            have hne : rest ≠ [] := by
              intro hnil
              rw [hnil] at hres
              simp at hres
            refine ⟨?_, by have := hres.2.1; simp only [List.length_cons]; omega, hres.2.2⟩
            rw [show (c :: rest) = [c] ++ rest by simp, List.getLast?_append_of_ne_nil _ hne]
            exact hres.1
          · simp only [hcb, if_false] at h
            by_cases hpc : c = '%'
            · simp only [hpc, if_true] at h
              have h' := exceptMap_error _ _ _ h
              have hle := breakAfterNl_snd_length rest
              have hres := ih _ _ _ (by omega) h'
              have htd := breakAfterNl_append rest
              have hne : (breakAfterNl rest).2 ≠ [] := by
                intro hnil
                rw [hnil] at hres
                simp at hres
              constructor
              · rw [show (c :: rest) = (c :: (breakAfterNl rest).1) ++
                    (breakAfterNl rest).2 by simp [htd]]
                rw [List.getLast?_append_of_ne_nil _ hne]
                exact hres.1
              · have hlen2 : (breakAfterNl rest).1.length +
                    (breakAfterNl rest).2.length = rest.length := by
                  rw [← List.length_append, htd]
                refine ⟨?_, hres.2.2⟩
                have := hres.2.1
                simp only [List.length_cons]
                omega
            · simp only [hpc, if_false] at h
              have h' := exceptMap_error _ _ _ h
              have hle := length_dropWhile_le plainChar rest
              have hres := ih _ _ _ (by omega) h'
              have htd : rest.takeWhile plainChar ++ rest.dropWhile plainChar = rest :=
                List.takeWhile_append_dropWhile _ _
              have hne : rest.dropWhile plainChar ≠ [] := by
                intro hnil
                rw [hnil] at hres
                simp at hres
              constructor
              · rw [show (c :: rest) = (c :: rest.takeWhile plainChar) ++
                    rest.dropWhile plainChar by simp [htd]]
                rw [List.getLast?_append_of_ne_nil _ hne]
                exact hres.1
              · have hlen2 : (rest.takeWhile plainChar).length +
                    (rest.dropWhile plainChar).length = rest.length := by
                  rw [← List.length_append, htd]
                refine ⟨?_, hres.2.2⟩
                have := hres.2.1
                simp only [List.length_cons]
                omega

theorem lexGo_nil_ok (fuel : Nat) (pos : Nat) (ts : List Tok)
    (h : lexGo fuel pos [] = .ok ts) : ts = [] := by
  match fuel with
  | 0 => simp [lexGo] at h
  | f + 1 =>
    simp only [lexGo] at h
    cases h
    rfl

/-- Every comment token produced by the tokenizer spans from the comment
marker to end-of-line: it contains no interior newline, and unless it is
the final token of the stream (comment ending at end-of-input) its last
character is the line terminator itself. -/
theorem lexGo_comment_spans (fuel : Nat) :
    ∀ (pos : Nat) (cs : List Char) (ts : List Tok), lexGo fuel pos cs = .ok ts →
      ∀ (pre : List Tok) (t : Tok) (post : List Tok), ts = pre ++ t :: post →
        t.isComment = true →
        commentSpanOk t.raw ∧ (post ≠ [] → t.raw.getLast? = some '\n') := by
  induction fuel with
  | zero => intro pos cs ts h; simp [lexGo] at h
  | succ f ih =>
    intro pos cs ts h pre t post hts hcm
    match cs with
    | [] =>
      simp only [lexGo] at h
      cases h
      simp at hts
    | c :: rest =>
      simp only [lexGo] at h
      by_cases hc : c = '\\'
      · simp only [hc, if_true] at h
        match rest with
        | [] => simp at h
        | d :: rest2 =>
          by_cases hd : d.isAlpha
          · simp only [hd, if_true] at h
            obtain ⟨ts', hts', rfl⟩ := exceptMap_ok _ _ _ h
            cases pre with
            | nil =>
              have hh := List.cons.inj hts
              rw [← hh.1] at hcm
              simp [cmdTok_isComment] at hcm
            | cons p0 pre' =>
              have hh := List.cons.inj hts
              exact ih _ _ _ hts' pre' t post hh.2 hcm
          · simp only [hd, Bool.false_eq_true, if_false] at h
            obtain ⟨ts', hts', rfl⟩ := exceptMap_ok _ _ _ h
            cases pre with
            | nil =>
              have hh := List.cons.inj hts
              rw [← hh.1] at hcm
              simp [Tok.isComment] at hcm
            | cons p0 pre' =>
              have hh := List.cons.inj hts
              exact ih _ _ _ hts' pre' t post hh.2 hcm
      · simp only [hc, if_false] at h
        by_cases hob : c = '{'
        · simp only [hob, if_true] at h
          obtain ⟨ts', hts', rfl⟩ := exceptMap_ok _ _ _ h
          cases pre with
          | nil =>
            have hh := List.cons.inj hts
            rw [← hh.1] at hcm
            simp [Tok.isComment] at hcm
          | cons p0 pre' =>
            have hh := List.cons.inj hts
            exact ih _ _ _ hts' pre' t post hh.2 hcm
        · simp only [hob, if_false] at h
          by_cases hcb : c = '}'
          · simp only [hcb, if_true] at h
            obtain ⟨ts', hts', rfl⟩ := exceptMap_ok _ _ _ h
            cases pre with
            | nil =>
              have hh := List.cons.inj hts
              rw [← hh.1] at hcm
              simp [Tok.isComment] at hcm
            | cons p0 pre' =>
              have hh := List.cons.inj hts
              exact ih _ _ _ hts' pre' t post hh.2 hcm
          · simp only [hcb, if_false] at h
            by_cases hpc : c = '%'
            · simp only [hpc, if_true] at h
              obtain ⟨ts', hts', rfl⟩ := exceptMap_ok _ _ _ h
              cases pre with
              | nil =>
                have hh := List.cons.inj hts
                subst hpc
                constructor
                · rw [← hh.1]
                  intro x hx
                  simp only [Tok.raw] at hx
                  rcases Decidable.em ((breakAfterNl rest).1 = []) with he | he
                  · simp [he] at hx
                  · rw [List.dropLast_cons_of_ne_nil he] at hx
                    rcases List.mem_cons.mp hx with rfl | hx
                    · intro heq
                      cases heq
                    · exact breakAfterNl_no_inner_nl rest x hx
                · intro hpost
                  have hpost' : ts' ≠ [] := by
                    rw [hh.2]
                    exact hpost
                  have hs2 : (breakAfterNl rest).2 ≠ [] := by
                    intro hnil
                    rw [hnil] at hts'
                    exact hpost' (lexGo_nil_ok _ _ _ hts')
                  have hnl := breakAfterNl_ends_nl rest hs2
                  have hne : (breakAfterNl rest).1 ≠ [] := by
                    intro hnil
                    rw [hnil] at hnl
                    simp at hnl
                  rw [← hh.1]
                  simp only [Tok.raw]
                  rw [show ('%' :: (breakAfterNl rest).1) = ['%'] ++ (breakAfterNl rest).1
                        from rfl,
                      List.getLast?_append_of_ne_nil _ hne]
                  exact hnl
              | cons p0 pre' =>
                have hh := List.cons.inj hts
                exact ih _ _ _ hts' pre' t post hh.2 hcm
            · simp only [hpc, if_false] at h
              obtain ⟨ts', hts', rfl⟩ := exceptMap_ok _ _ _ h
              cases pre with
              | nil =>
                have hh := List.cons.inj hts
                rw [← hh.1] at hcm
                simp [Tok.isComment] at hcm
              | cons p0 pre' =>
                have hh := List.cons.inj hts
                exact ih _ _ _ hts' pre' t post hh.2 hcm

theorem serializeNodes_append (a b : List Node) :
    serializeNodes (a ++ b) = serializeNodes a ++ serializeNodes b := by
  induction a with
  | nil => simp [serializeNodes]
  | cons n ns ih => simp [serializeNodes, ih]

theorem exceptBind_ok {ε α β : Type} (x : Except ε α) (f : α → Except ε β) (b : β)
    (h : exceptBind x f = .ok b) : ∃ a, x = .ok a ∧ f a = .ok b := by
  cases x with
  | error e => simp [exceptBind] at h
  | ok a => exact ⟨a, rfl, h⟩

theorem mapErr_ok {ε ε' α : Type} (f : ε → ε') (x : Except ε α) (a : α)
    (h : mapErr f x = .ok a) : x = .ok a := by
  cases x with
  | error e => simp [mapErr] at h
  | ok b => simpa [mapErr] using h

theorem mapErr_error {ε ε' α : Type} (f : ε → ε') (x : Except ε α) (e' : ε')
    (h : mapErr f x = .error e') : ∃ e, x = .error e ∧ e' = f e := by
  cases x with
  | error e =>
    refine ⟨e, rfl, ?_⟩
    simp only [mapErr, Except.error.injEq] at h
    exact h.symm
  | ok b => simp [mapErr] at h

theorem cleanL_append (a b : List Node) :
    cleanL (a ++ b) = (cleanL a && cleanL b) := by
  induction a with
  | nil => simp [cleanL]
  | cons n ns ih => simp [cleanL, ih, Bool.and_assoc]

/-- Combined specification of content assembly: on success the produced
nodes serialize to exactly the consumed tokens' raw spans, are clean, and
the consumed prefix is balanced with respect to groups and environments. -/
theorem parseItems_spec (fuel : Nat) :
    ∀ (inG : Bool) (ts : List Tok) (ns : List Node) (r : List Tok),
      parseItems fuel inG ts = .ok (ns, r) →
      serializeNodes ns ++ joinRaws r = joinRaws ts ∧ cleanL ns = true ∧
        gbal ts = gbal r ∧ ebal ts = ebal r := by
  induction fuel with
  | zero => intro inG ts ns r h; simp [parseItems] at h
  | succ f ih =>
    intro inG ts ns r h
    match ts with
    | [] =>
      simp only [parseItems, Except.ok.injEq, Prod.mk.injEq] at h
      obtain ⟨rfl, rfl⟩ := h
      simp [serializeNodes, joinRaws, cleanL]
    | t :: ts' =>
      cases t with
      | groupClose =>
        simp only [parseItems, Except.ok.injEq, Prod.mk.injEq] at h
        obtain ⟨rfl, rfl⟩ := h
        simp [serializeNodes, cleanL]
      | envEnd er =>
        simp only [parseItems, Except.ok.injEq, Prod.mk.injEq] at h
        obtain ⟨rfl, rfl⟩ := h
        simp [serializeNodes, cleanL]
      | textRun raw =>
        simp only [parseItems] at h
        obtain ⟨⟨ns', r'⟩, hok, heq⟩ := exceptMap_ok _ _ _ h
        simp only [Prod.mk.injEq] at heq
        obtain ⟨rfl, rfl⟩ := heq
        obtain ⟨h1, h2, h3, h4⟩ := ih _ _ _ _ hok
        refine ⟨?_, ?_, ?_, ?_⟩
        · simp only [serializeNodes, serializeNode, joinRaws, Tok.raw, List.append_assoc, h1]
        · simp [cleanL, cleanN, h2]
        · simp [gbal, gval, h3]
        · simp [ebal, eBalTok, h4]
      | comment raw =>
        simp only [parseItems] at h
        obtain ⟨⟨ns', r'⟩, hok, heq⟩ := exceptMap_ok _ _ _ h
        simp only [Prod.mk.injEq] at heq
        obtain ⟨rfl, rfl⟩ := heq
        obtain ⟨h1, h2, h3, h4⟩ := ih _ _ _ _ hok
        refine ⟨?_, ?_, ?_, ?_⟩
        · simp only [serializeNodes, serializeNode, joinRaws, Tok.raw, List.append_assoc, h1]
        · simp [cleanL, cleanN, h2]
        · simp [gbal, gval, h3]
        · simp [ebal, eBalTok, h4]
      | escape raw =>
        simp only [parseItems] at h
        obtain ⟨⟨ns', r'⟩, hok, heq⟩ := exceptMap_ok _ _ _ h
        simp only [Prod.mk.injEq] at heq
        obtain ⟨rfl, rfl⟩ := heq
        obtain ⟨h1, h2, h3, h4⟩ := ih _ _ _ _ hok
        refine ⟨?_, ?_, ?_, ?_⟩
        · simp only [serializeNodes, serializeNode, joinRaws, Tok.raw, List.append_assoc, h1]
        · simp [cleanL, cleanN, h2]
        · simp [gbal, gval, h3]
        · simp [ebal, eBalTok, h4]
      | commandStart raw =>
        simp only [parseItems] at h
        by_cases hg : inG
        · simp only [hg, if_true] at h
          obtain ⟨⟨ns', r'⟩, hok, heq⟩ := exceptMap_ok _ _ _ h
          simp only [Prod.mk.injEq] at heq
          obtain ⟨rfl, rfl⟩ := heq
          obtain ⟨h1, h2, h3, h4⟩ := ih _ _ _ _ hok
          refine ⟨?_, ?_, ?_, ?_⟩
          · simp only [serializeNodes, serializeNode, joinRaws, Tok.raw, List.append_assoc, h1]
          · simp [cleanL, cleanN, h2]
          · simp [gbal, gval, h3]
          · simp [ebal, eBalTok, h4]
        · simp only [hg, Bool.false_eq_true, if_false] at h
          cases hsl : secLevel raw with
          | some l =>
            rw [hsl] at h
            simp only [Except.ok.injEq, Prod.mk.injEq] at h
            obtain ⟨rfl, rfl⟩ := h
            simp [serializeNodes, cleanL]
          | none =>
            rw [hsl] at h
            obtain ⟨⟨ns', r'⟩, hok, heq⟩ := exceptMap_ok _ _ _ h
            simp only [Prod.mk.injEq] at heq
            obtain ⟨rfl, rfl⟩ := heq
            obtain ⟨h1, h2, h3, h4⟩ := ih _ _ _ _ hok
            refine ⟨?_, ?_, ?_, ?_⟩
            · simp only [serializeNodes, serializeNode, joinRaws, Tok.raw,
                List.append_assoc, h1]
            · simp [cleanL, cleanN, h2]
            · simp [gbal, gval, h3]
            · simp [ebal, eBalTok, h4]
      | groupOpen =>
        simp only [parseItems] at h
        cases hin : parseItems f true ts' with
        | error e => rw [hin] at h; cases h
        | ok pr =>
          obtain ⟨cs, rest⟩ := pr
          rw [hin] at h
          obtain ⟨hi1, hi2, hi3, hi4⟩ := ih _ _ _ _ hin
          match rest, h with
          | .groupClose :: rest2, h =>
            obtain ⟨⟨ns', r'⟩, hok, heq⟩ := exceptMap_ok _ _ _ h
            simp only [Prod.mk.injEq] at heq
            obtain ⟨rfl, rfl⟩ := heq
            obtain ⟨h1, h2, h3, h4⟩ := ih _ _ _ _ hok
            refine ⟨?_, ?_, ?_, ?_⟩
            · simp only [serializeNodes, serializeNode, joinRaws, Tok.raw,
                List.append_assoc, List.cons_append, List.nil_append] at hi1 ⊢
              rw [h1, ← hi1]
            · simp only [cleanL, cleanN, h2, hi2, Bool.and_self]
            · simp only [gbal, gval, joinRaws] at hi3 ⊢
              omega
            · simp only [ebal, eBalTok, joinRaws] at hi4 ⊢
              omega
      | envBegin raw =>
        simp only [parseItems] at h
        cases hin : parseItems f true ts' with
        | error e => rw [hin] at h; cases h
        | ok pr =>
          obtain ⟨cs, rest⟩ := pr
          rw [hin] at h
          obtain ⟨hi1, hi2, hi3, hi4⟩ := ih _ _ _ _ hin
          match rest, h with
          | .envEnd er :: rest2, h =>
            obtain ⟨⟨ns', r'⟩, hok, heq⟩ := exceptMap_ok _ _ _ h
            simp only [Prod.mk.injEq] at heq
            obtain ⟨rfl, rfl⟩ := heq
            obtain ⟨h1, h2, h3, h4⟩ := ih _ _ _ _ hok
            refine ⟨?_, ?_, ?_, ?_⟩
            · simp only [serializeNodes, serializeNode, joinRaws, Tok.raw,
                List.append_assoc, List.cons_append, List.nil_append] at hi1 ⊢
              rw [h1, ← hi1]
            · simp only [cleanL, cleanN, h2, hi2, Bool.and_self]
            · simp only [gbal, gval, joinRaws] at hi3 ⊢
              omega
            · simp only [ebal, eBalTok, joinRaws] at hi4 ⊢
              omega

/-- Specification of header parsing: the produced header span plus the raw
spans of the remaining tokens reproduce the consumed tokens' raw spans,
and the consumed prefix is balanced. -/
theorem parseHeader_spec (fuel : Nat) (r : List Char) (ts : List Tok)
    (title header : List Char) (rest : List Tok)
    (h : parseHeader fuel r ts = .ok ((title, header), rest)) :
    header ++ joinRaws rest = r ++ joinRaws ts ∧
      gbal ts = gbal rest ∧ ebal ts = ebal rest := by
  match ts with
  | [] =>
    simp only [parseHeader, Except.ok.injEq, Prod.mk.injEq] at h
    obtain ⟨⟨rfl, rfl⟩, rfl⟩ := h
    exact ⟨rfl, rfl, rfl⟩
  | .groupOpen :: ts2 =>
    simp only [parseHeader] at h
    cases hti : parseItems fuel true ts2 with
    | error e => rw [hti] at h; cases h
    | ok pr =>
      obtain ⟨tns, r1⟩ := pr
      rw [hti] at h
      obtain ⟨ht1, ht2, ht3, ht4⟩ := parseItems_spec fuel true ts2 tns r1 hti
      match r1, h, ht1, ht3, ht4 with
      | .groupClose :: r2, h, ht1, ht3, ht4 =>
        simp only [Except.ok.injEq, Prod.mk.injEq] at h
        obtain ⟨⟨rfl, rfl⟩, rfl⟩ := h
        simp only [joinRaws, Tok.raw] at ht1 ht3 ht4 ⊢
        refine ⟨?_, ?_, ?_⟩
        · rw [List.append_assoc, ← ht1]
          simp
        · simp only [gbal, gval] at ht3 ⊢
          omega
        · simp only [ebal, eBalTok] at ht4 ⊢
          omega
  | .commandStart r0 :: ts2 =>
    simp only [parseHeader, Except.ok.injEq, Prod.mk.injEq] at h
    obtain ⟨⟨rfl, rfl⟩, rfl⟩ := h
    exact ⟨rfl, rfl, rfl⟩
  | .groupClose :: ts2 =>
    simp only [parseHeader, Except.ok.injEq, Prod.mk.injEq] at h
    obtain ⟨⟨rfl, rfl⟩, rfl⟩ := h
    exact ⟨rfl, rfl, rfl⟩
  | .envBegin r0 :: ts2 =>
    simp only [parseHeader, Except.ok.injEq, Prod.mk.injEq] at h
    obtain ⟨⟨rfl, rfl⟩, rfl⟩ := h
    exact ⟨rfl, rfl, rfl⟩
  | .envEnd r0 :: ts2 =>
    simp only [parseHeader, Except.ok.injEq, Prod.mk.injEq] at h
    obtain ⟨⟨rfl, rfl⟩, rfl⟩ := h
    exact ⟨rfl, rfl, rfl⟩
  | .comment r0 :: ts2 =>
    simp only [parseHeader, Except.ok.injEq, Prod.mk.injEq] at h
    obtain ⟨⟨rfl, rfl⟩, rfl⟩ := h
    exact ⟨rfl, rfl, rfl⟩
  | .textRun r0 :: ts2 =>
    simp only [parseHeader, Except.ok.injEq, Prod.mk.injEq] at h
    obtain ⟨⟨rfl, rfl⟩, rfl⟩ := h
    exact ⟨rfl, rfl, rfl⟩
  | .escape r0 :: ts2 =>
    simp only [parseHeader, Except.ok.injEq, Prod.mk.injEq] at h
    obtain ⟨⟨rfl, rfl⟩, rfl⟩ := h
    exact ⟨rfl, rfl, rfl⟩

/-- Combined specification of Section assembly: on success the produced
Sections serialize to exactly the consumed tokens' raw spans, are clean,
and the consumed prefix is balanced. -/
theorem parseSecs_spec (fuel : Nat) :
    ∀ (lvl : Nat) (ts : List Tok) (ns : List Node) (r : List Tok),
      parseSecs fuel lvl ts = .ok (ns, r) →
      serializeNodes ns ++ joinRaws r = joinRaws ts ∧ cleanL ns = true ∧
        gbal ts = gbal r ∧ ebal ts = ebal r := by
  induction fuel with
  | zero => intro lvl ts ns r h; simp [parseSecs] at h
  | succ f ih =>
    intro lvl ts ns r h
    match ts with
    | [] =>
      simp only [parseSecs, Except.ok.injEq, Prod.mk.injEq] at h
      obtain ⟨rfl, rfl⟩ := h
      simp [serializeNodes, cleanL]
    | t :: ts' =>
      cases t with
      | commandStart raw =>
        simp only [parseSecs] at h
        cases hsl : secLevel raw with
        | none =>
          rw [hsl] at h
          simp only [Except.ok.injEq, Prod.mk.injEq] at h
          obtain ⟨rfl, rfl⟩ := h
          simp [serializeNodes, cleanL]
        | some l =>
          rw [hsl] at h
          by_cases hlt : l < lvl
          · simp only [hlt, if_true] at h
            simp only [Except.ok.injEq, Prod.mk.injEq] at h
            obtain ⟨rfl, rfl⟩ := h
            simp [serializeNodes, cleanL]
          · simp only [hlt, if_false] at h
            obtain ⟨⟨⟨title, header⟩, r2⟩, hh, h⟩ := exceptBind_ok _ _ _ h
            obtain ⟨hh1, hh3, hh4⟩ := parseHeader_spec f raw ts' title header r2 hh
            obtain ⟨⟨content, r3⟩, hco, h⟩ := exceptBind_ok _ _ _ h
            obtain ⟨hc1, hc2, hc3, hc4⟩ := parseItems_spec f false r2 content r3 hco
            obtain ⟨⟨subs, r4⟩, hsub, h⟩ := exceptBind_ok _ _ _ h
            obtain ⟨hs1, hs2, hs3, hs4⟩ := ih _ _ _ _ hsub
            obtain ⟨⟨sibs, r5⟩, hok, heq⟩ := exceptMap_ok _ _ _ h
            simp only [Prod.mk.injEq] at heq
            obtain ⟨rfl, rfl⟩ := heq
            obtain ⟨hb1, hb2, hb3, hb4⟩ := ih _ _ _ _ hok
            refine ⟨?_, ?_, ?_, ?_⟩
            · have e3 : serializeNodes subs ++ (serializeNodes sibs ++ joinRaws r5) =
                  joinRaws r3 := by
                rw [hb1]; exact hs1
              have e2 : serializeNodes content ++ (serializeNodes subs ++
                  (serializeNodes sibs ++ joinRaws r5)) = joinRaws r2 := by
                rw [e3]; exact hc1
              simp only [serializeNodes, serializeNode, serializeNodes_append,
                joinRaws, Tok.raw, List.append_assoc, Bool.false_eq_true, if_false]
              rw [e2]
              exact hh1
            · simp only [cleanL, cleanN, cleanL_append, hc2, hs2, hb2,
                Bool.not_false, Bool.and_self, Bool.true_and]
            · simp only [gbal, gval] at hh3 hc3 hs3 hb3 ⊢
              omega
            · simp only [ebal, eBalTok] at hh4 hc4 hs4 hb4 ⊢
              omega
      | groupOpen =>
        simp only [parseSecs, Except.ok.injEq, Prod.mk.injEq] at h
        obtain ⟨rfl, rfl⟩ := h
        simp [serializeNodes, cleanL]
      | groupClose =>
        simp only [parseSecs, Except.ok.injEq, Prod.mk.injEq] at h
        obtain ⟨rfl, rfl⟩ := h
        simp [serializeNodes, cleanL]
      | envBegin r0 =>
        simp only [parseSecs, Except.ok.injEq, Prod.mk.injEq] at h
        obtain ⟨rfl, rfl⟩ := h
        simp [serializeNodes, cleanL]
      | envEnd r0 =>
        simp only [parseSecs, Except.ok.injEq, Prod.mk.injEq] at h
        obtain ⟨rfl, rfl⟩ := h
        simp [serializeNodes, cleanL]
      | comment r0 =>
        simp only [parseSecs, Except.ok.injEq, Prod.mk.injEq] at h
        obtain ⟨rfl, rfl⟩ := h
        simp [serializeNodes, cleanL]
      | textRun r0 =>
        simp only [parseSecs, Except.ok.injEq, Prod.mk.injEq] at h
        obtain ⟨rfl, rfl⟩ := h
        simp [serializeNodes, cleanL]
      | escape r0 =>
        simp only [parseSecs, Except.ok.injEq, Prod.mk.injEq] at h
        obtain ⟨rfl, rfl⟩ := h
        simp [serializeNodes, cleanL]

/-- Document-level parser specification: a successfully built tree
serializes to the concatenated raw spans of the whole token stream, is
clean, and certifies that the stream was balanced for both groups and
environments. -/
theorem parseDoc_spec (ts : List Tok) (d : Doc) (h : parseDoc ts = .ok d) :
    serializeDoc d = joinRaws ts ∧ cleanD d = true ∧ gbal ts = 0 ∧ ebal ts = 0 := by
  unfold parseDoc at h
  obtain ⟨⟨pre, r1⟩, hpre, h⟩ := exceptBind_ok _ _ _ h
  obtain ⟨hp1, hp2, hp3, hp4⟩ := parseItems_spec _ _ _ _ _ hpre
  obtain ⟨⟨secs, r2⟩, hsec, h⟩ := exceptBind_ok _ _ _ h
  obtain ⟨hs1, hs2, hs3, hs4⟩ := parseSecs_spec _ _ _ _ _ hsec
  match r2, h, hs1, hs3, hs4 with
  | [], h, hs1, hs3, hs4 =>
    simp only [Except.ok.injEq] at h
    subst h
    refine ⟨?_, ?_, ?_, ?_⟩
    · simp only [serializeDoc, serializeNodes_append]
      simp only [joinRaws, List.append_nil] at hs1
      rw [hs1, hp1]
    · simp only [cleanD, cleanL_append, hp2, hs2, Bool.and_self]
    · simp only [gbal] at hs3
      omega
    · simp only [ebal] at hs4
      omega

/-- Structured-parse specification: a successfully parsed document
serializes back to the input (round-trip), is clean, and certifies
balance of the token stream the tokenizer produced. -/
theorem structuredParse_spec (x : List Char) (d : Doc)
    (h : structuredParse x = .ok d) :
    serializeDoc d = x ∧ cleanD d = true ∧
      ∃ ts, lex 0 x = .ok ts ∧ gbal ts = 0 ∧ ebal ts = 0 := by
  unfold structuredParse at h
  obtain ⟨ts, hlex, h⟩ := exceptBind_ok _ _ _ h
  have hlex' := mapErr_ok _ _ _ hlex
  have hdoc := mapErr_ok _ _ _ h
  obtain ⟨h1, h2, h3, h4⟩ := parseDoc_spec _ _ hdoc
  exact ⟨by rw [h1, lexGo_lossless _ _ _ _ hlex'], h2, ts, hlex', h3, h4⟩

theorem filter_isSec_idem (cs : List Node) :
    (cs.filter Node.isSec).filter Node.isSec = cs.filter Node.isSec := by
  induction cs with
  | nil => rfl
  | cons c rest ih =>
    by_cases h : c.isSec <;> simp [List.filter_cons, h, ih]

/-- Serialization-level frame property of a single body replacement,
stated over the children of one node: the output decomposes as an
unchanged prefix, the replaced body bytes, and an unchanged suffix. -/
theorem replace_decomp_L (p : List Nat)
    (hN : ∀ (n : Node) (t : List Char), cleanN n = true → secPathN p n = true →
      ∃ pre post, serializeNode n = pre ++ serializeNodes (childrenAtN p n) ++ post ∧
        serializeNode (replaceBodyN p t n) = pre ++ ('\n' :: (t ++ '\n' ::
          serializeNodes ((childrenAtN p n).filter Node.isSec))) ++ post) :
    ∀ (i : Nat) (cs : List Node) (t : List Char),
      cleanL cs = true → secPathL i p cs = true →
      ∃ pre post,
        serializeNodes cs = pre ++ serializeNodes (childrenAtL i p cs) ++ post ∧
        serializeNodes (replaceBodyL i p t cs) = pre ++ ('\n' :: (t ++ '\n' ::
          serializeNodes ((childrenAtL i p cs).filter Node.isSec))) ++ post := by
  intro i cs
  induction cs generalizing i with
  | nil => intro t hc hp; simp [secPathL] at hp
  | cons c rest ih =>
    intro t hc hp
    simp only [cleanL, Bool.and_eq_true] at hc
    match i, hp with
    | 0, hp =>
      simp only [secPathL] at hp
      obtain ⟨pre, post, e1, e2⟩ := hN c t hc.1 hp
      refine ⟨pre, post ++ serializeNodes rest, ?_, ?_⟩
      · simp only [serializeNodes, childrenAtL, e1, List.append_assoc]
      · simp only [replaceBodyL, serializeNodes, childrenAtL, e2, List.append_assoc]
    | i + 1, hp =>
      simp only [secPathL] at hp
      obtain ⟨pre, post, e1, e2⟩ := ih i t hc.2 hp
      refine ⟨serializeNode c ++ pre, post, ?_, ?_⟩
      · simp only [serializeNodes, childrenAtL, e1, List.append_assoc]
      · simp only [replaceBodyL, serializeNodes, childrenAtL, e2, List.append_assoc]

/-- Serialization-level frame property of a single body replacement at a
Section reached by a path inside a clean subtree. -/
theorem replace_decomp_N :
    ∀ (p : List Nat) (n : Node) (t : List Char),
      cleanN n = true → secPathN p n = true →
      ∃ pre post, serializeNode n = pre ++ serializeNodes (childrenAtN p n) ++ post ∧
        serializeNode (replaceBodyN p t n) = pre ++ ('\n' :: (t ++ '\n' ::
          serializeNodes ((childrenAtN p n).filter Node.isSec))) ++ post := by
  intro p
  induction p with
  | nil =>
    intro n t hc hp
    match n, hp with
    | .sec l ti h d rp cs, hp =>
      simp only [cleanN, Bool.and_eq_true, Bool.not_eq_eq_eq_not, Bool.not_true] at hc
      obtain ⟨rfl, -⟩ := hc
      refine ⟨h, [], ?_, ?_⟩
      · simp [serializeNode, childrenAtN]
      · simp [replaceBodyN, serializeNode, childrenAtN, filter_isSec_idem]
  | cons i p' ihp =>
    intro n t hc hp
    match n, hp with
    | .sec l ti h d rp cs, hp =>
      simp only [secPathN] at hp
      simp only [cleanN, Bool.and_eq_true, Bool.not_eq_eq_eq_not, Bool.not_true] at hc
      obtain ⟨rfl, hcl⟩ := hc
      obtain ⟨pre, post, e1, e2⟩ := replace_decomp_L p' ihp i cs t hcl hp
      refine ⟨h ++ pre, post, ?_, ?_⟩
      · simp only [serializeNode, childrenAtN, Bool.false_eq_true, if_false, e1,
          List.append_assoc]
      · simp only [replaceBodyN, serializeNode, childrenAtN, Bool.false_eq_true,
          if_false, e2, List.append_assoc]
    | .group cs, hp =>
      simp only [secPathN] at hp
      simp only [cleanN] at hc
      obtain ⟨pre, post, e1, e2⟩ := replace_decomp_L p' ihp i cs t hc hp
      refine ⟨'{' :: pre, post ++ ['}'], ?_, ?_⟩
      · simp only [serializeNode, childrenAtN, e1, List.append_assoc, List.cons_append]
      · simp only [replaceBodyN, serializeNode, childrenAtN, e2, List.append_assoc,
          List.cons_append]
    | .envBlock b cs e, hp =>
      simp only [secPathN] at hp
      simp only [cleanN] at hc
      obtain ⟨pre, post, e1, e2⟩ := replace_decomp_L p' ihp i cs t hc hp
      refine ⟨b ++ pre, post ++ e, ?_, ?_⟩
      · simp only [serializeNode, childrenAtN, e1, List.append_assoc]
      · simp only [replaceBodyN, serializeNode, childrenAtN, e2, List.append_assoc]

/-- Serialization-level frame property of a single body replacement on a
freshly parsed document: outside the byte range its body originally
occupied (prefix including the header, and suffix), the output is
byte-identical; inside it, the body bytes are replaced by the new text on
its own line followed by the preserved child Sections. -/
theorem replace_decomp_D (x : List Char) (d : Doc) (p : List Nat) (t : List Char)
    (hparse : structuredParse x = .ok d) (hp : secPathD p d = true) :
    ∃ pre post,
      serializeDoc d = pre ++ serializeNodes (childrenAtD p d) ++ post ∧
      serializeDoc (replaceDoc p t d) = pre ++ ('\n' :: (t ++ '\n' ::
        serializeNodes ((childrenAtD p d).filter Node.isSec))) ++ post := by
  obtain ⟨-, hclean, -⟩ := structuredParse_spec x d hparse
  match p, hp with
  | i :: p', hp =>
    simp only [secPathD] at hp
    simp only [cleanD] at hclean
    obtain ⟨pre, post, e1, e2⟩ := replace_decomp_L p' (replace_decomp_N p') i
      d.children t hclean hp
    exact ⟨pre, post, e1, e2⟩

/-- Overwriting the same child index twice through a list equals the last
overwrite, given the property for the addressed node. -/
theorem replaceTwice_L (p : List Nat) (t1 t2 : List Char)
    (hN : ∀ n, replaceBodyN p t2 (replaceBodyN p t1 n) = replaceBodyN p t2 n) :
    ∀ (i : Nat) (cs : List Node),
      replaceBodyL i p t2 (replaceBodyL i p t1 cs) = replaceBodyL i p t2 cs := by
  intro i cs
  induction cs generalizing i with
  | nil => simp [replaceBodyL]
  | cons c rest ih =>
    match i with
    | 0 => simp [replaceBodyL, hN]
    | i + 1 => simp [replaceBodyL, ih]

/-- Replacing the body of the node at a path twice leaves exactly the last
replacement: the intermediate state leaves no trace. -/
theorem replaceTwice_N (p : List Nat) (t1 t2 : List Char) :
    ∀ (n : Node), replaceBodyN p t2 (replaceBodyN p t1 n) = replaceBodyN p t2 n := by
  induction p with
  | nil =>
    intro n
    match n with
    | .sec l ti h d rp cs => simp [replaceBodyN, filter_isSec_idem]
    | .group cs => rfl
    | .envBlock b cs e => rfl
    | .textRun r => rfl
    | .comment r => rfl
    | .command r => rfl
  | cons i p' ihp =>
    intro n
    match n with
    | .sec l ti h d rp cs => simp [replaceBodyN, replaceTwice_L p' t1 t2 ihp]
    | .group cs => simp [replaceBodyN, replaceTwice_L p' t1 t2 ihp]
    | .envBlock b cs e => simp [replaceBodyN, replaceTwice_L p' t1 t2 ihp]
    | .textRun r => rfl
    | .comment r => rfl
    | .command r => rfl

/-- Document-level idempotent overwrite. -/
theorem replaceTwice_D (p : List Nat) (t1 t2 : List Char) (d : Doc) :
    replaceDoc p t2 (replaceDoc p t1 d) = replaceDoc p t2 d := by
  match p with
  | [] => rfl
  | i :: p' => simp [replaceDoc, replaceTwice_L p' t1 t2 (replaceTwice_N p' t1 t2)]

/-- Replacing a body through a child list preserves the Section children
found at that same path, given the property for the addressed node. -/
theorem keepSubsecs_L (p : List Nat) (t : List Char)
    (hN : ∀ n, (childrenAtN p (replaceBodyN p t n)).filter Node.isSec =
      (childrenAtN p n).filter Node.isSec) :
    ∀ (i : Nat) (cs : List Node),
      (childrenAtL i p (replaceBodyL i p t cs)).filter Node.isSec =
        (childrenAtL i p cs).filter Node.isSec := by
  intro i cs
  induction cs generalizing i with
  | nil => simp [replaceBodyL]
  | cons c rest ih =>
    match i with
    | 0 => simp [replaceBodyL, childrenAtL, hN]
    | i + 1 => simp [replaceBodyL, childrenAtL, ih]

/-- After a body replacement, the Section children of the replaced node
are exactly the Section children it had before (same nodes: same header
spans, same subtrees). -/
theorem keepSubsecs_N (p : List Nat) (t : List Char) :
    ∀ (n : Node), (childrenAtN p (replaceBodyN p t n)).filter Node.isSec =
      (childrenAtN p n).filter Node.isSec := by
  induction p with
  | nil =>
    intro n
    match n with
    | .sec l ti h d rp cs => simp [replaceBodyN, childrenAtN, filter_isSec_idem]
    | .group cs => rfl
    | .envBlock b cs e => rfl
    | .textRun r => rfl
    | .comment r => rfl
    | .command r => rfl
  | cons i p' ihp =>
    intro n
    match n with
    | .sec l ti h d rp cs => simp [replaceBodyN, childrenAtN, keepSubsecs_L p' t ihp]
    | .group cs => simp [replaceBodyN, childrenAtN, keepSubsecs_L p' t ihp]
    | .envBlock b cs e => simp [replaceBodyN, childrenAtN, keepSubsecs_L p' t ihp]
    | .textRun r => rfl
    | .comment r => rfl
    | .command r => rfl

/-- Document-level nesting preservation. -/
theorem keepSubsecs_D (p : List Nat) (t : List Char) (d : Doc) :
    (childrenAtD p (replaceDoc p t d)).filter Node.isSec =
      (childrenAtD p d).filter Node.isSec := by
  match p with
  | [] => rfl
  | i :: p' => simp [replaceDoc, childrenAtD, keepSubsecs_L p' t (keepSubsecs_N p' t)]

mutual
/-- The recursive matcher agrees with filtering the document-order Section
list of a subtree by normalized-title equality. -/
theorem findN_eq (nm : List Char) (n : Node) :
    findN nm n = (secsN n).filter (fun m => normalizeName m.titleOf = nm) := by
  match n with
  | .sec l ti h d rp cs =>
    rw [findN, secsN, List.filter_cons, findL_eq nm cs]
    by_cases hm : normalizeName ti = nm
    · simp [Node.titleOf, hm]
    · simp [Node.titleOf, hm]
  | .group cs => rw [findN, secsN, findL_eq nm cs]
  | .envBlock b cs e => rw [findN, secsN, findL_eq nm cs]
  | .textRun r => rfl
  | .comment r => rfl
  | .command r => rfl

/-- `findN_eq` over a child list. -/
theorem findL_eq (nm : List Char) (l : List Node) :
    findL nm l = (secsL l).filter (fun m => normalizeName m.titleOf = nm) := by
  match l with
  | [] => rfl
  | n :: ns =>
    rw [findL, secsL, List.filter_append, findN_eq nm n, findL_eq nm ns]
end

/-- `findByName` returns exactly the document-order Sections whose
normalized titles match the normalized query. -/
theorem findByName_eq (d : Doc) (nm : List Char) :
    findByName d nm = (sectionsInOrder d).filter
      (fun m => normalizeName m.titleOf = normalizeName nm) :=
  findL_eq (normalizeName nm) d.children

theorem exists_ok {ε α : Type} (r : Except ε α) (h : exceptIsOk r = true) :
    ∃ a, r = .ok a := by
  match r, h with
  | .ok a, _ => exact ⟨a, rfl⟩

/-- C1: for every valid structured input, parsing and serializing the
resulting tree with zero `replaceBody` calls yields exactly the input,
byte for byte; equivalently, the raw spans of all tokens of the lossless
token stream concatenate, in document order, to the original source. -/
theorem c1_round_trip :
    (∀ (x : List Char) (ts : List Tok), lex 0 x = .ok ts → joinRaws ts = x) ∧
    (∀ (x : List Char) (d : Doc), structuredParse x = .ok d → serializeDoc d = x) :=
  ⟨fun _ _ h => lexGo_lossless _ _ _ _ h,
   fun x d h => (structuredParse_spec x d h).1⟩

theorem c1_round_trip_witness :
    ∃ d, structuredParse sampleA = Except.ok d ∧ serializeDoc d = sampleA := by
  obtain ⟨d, hd⟩ := exists_ok (structuredParse sampleA) rfl
  exact ⟨d, hd, c1_round_trip.2 sampleA d hd⟩

/-- C2: on a freshly parsed document, replacing the body of the Section at
a valid path changes the serialized output only within the byte range the
section's body originally occupied: the output decomposes into the same
prefix (everything up to and including the header) and the same suffix
(every byte after the body range, hence the ranges of all other sections
outside it, byte for byte), with only the body bytes replaced — by the new
text on its own line followed by the preserved child Sections. -/
theorem c2_isolation (x : List Char) (d : Doc) (p : List Nat) (t : List Char)
    (hparse : structuredParse x = .ok d) (hp : secPathD p d = true) :
    ∃ pre post,
      serializeDoc d = pre ++ serializeNodes (childrenAtD p d) ++ post ∧
      serializeDoc (replaceDoc p t d) = pre ++ ('\n' :: (t ++ '\n' ::
        serializeNodes ((childrenAtD p d).filter Node.isSec))) ++ post :=
  replace_decomp_D x d p t hparse hp

theorem c2_isolation_witness :
    ∃ d pre post, structuredParse sampleA = Except.ok d ∧ secPathD [0] d = true ∧
      serializeDoc d = pre ++ serializeNodes (childrenAtD [0] d) ++ post ∧
      serializeDoc (replaceDoc [0] ("New text".toList) d) = pre ++ ('\n' ::
        ("New text".toList ++ '\n' ::
          serializeNodes ((childrenAtD [0] d).filter Node.isSec))) ++ post := by
  obtain ⟨d, hd⟩ := exists_ok (structuredParse sampleA) rfl
  have hp : secPathD [0] d = true := by
    have h2 : (structuredParse sampleA).toOption.map (secPathD [0]) = some true := rfl
    rw [hd] at h2
    rw [show (Except.ok (ε := PErr) d).toOption = some d from rfl, Option.map_some'] at h2
    exact Option.some.inj h2
  obtain ⟨pre, post, e1, e2⟩ := c2_isolation sampleA d [0] ("New text".toList) hd hp
  exact ⟨d, pre, post, hd, hp, e1, e2⟩

/-- C3: replacing the body at the same path twice and serializing gives
exactly the bytes of a fresh parse of the same input followed by a single
replacement with the final text: the intermediate text leaves no trace. -/
theorem c3_idempotent_overwrite (x : List Char) (d d' : Doc) (p : List Nat)
    (t1 t2 : List Char) (h : structuredParse x = .ok d)
    (h' : structuredParse x = .ok d') :
    serializeDoc (replaceDoc p t2 (replaceDoc p t1 d)) =
      serializeDoc (replaceDoc p t2 d') := by
  have hd : d' = d := by
    rw [h] at h'
    exact (Except.ok.inj h').symm
  rw [hd, replaceTwice_D]

theorem c3_idempotent_overwrite_witness :
    ∃ d, structuredParse sampleA = Except.ok d ∧
      serializeDoc (replaceDoc [0] ("second".toList)
        (replaceDoc [0] ("first".toList) d)) =
      serializeDoc (replaceDoc [0] ("second".toList) d) := by
  obtain ⟨d, hd⟩ := exists_ok (structuredParse sampleA) rfl
  exact ⟨d, hd,
    c3_idempotent_overwrite sampleA d d [0] ("first".toList) ("second".toList) hd hd⟩

/-- C4: after replacing the body of the Section at a path, the Section
children of that node are exactly the Section children it had before —
same nodes, so they remain its children with unchanged header spans (and
unchanged subtrees), even though the non-Section body children are
discarded in favour of the stored replacement text. -/
theorem c4_nesting_preservation (d : Doc) (p : List Nat) (t : List Char)
    (_hp : secPathD p d = true) :
    (childrenAtD p (replaceDoc p t d)).filter Node.isSec =
      (childrenAtD p d).filter Node.isSec ∧
    ((childrenAtD p (replaceDoc p t d)).filter Node.isSec).map Node.headerOf =
      ((childrenAtD p d).filter Node.isSec).map Node.headerOf := by
  refine ⟨keepSubsecs_D p t d, ?_⟩
  rw [keepSubsecs_D p t d]

theorem c4_nesting_preservation_witness :
    ∃ d, structuredParse
        ("\\section{A}\nalpha\n\\subsection{B}\nbeta".toList) = Except.ok d ∧
      (childrenAtD [0] (replaceDoc [0] ("fresh".toList) d)).filter Node.isSec =
        (childrenAtD [0] d).filter Node.isSec ∧
      ((childrenAtD [0] d).filter Node.isSec).map Node.headerOf =
        ["\\subsection{B}".toList] := by
  obtain ⟨d, hd⟩ := exists_ok
    (structuredParse ("\\section{A}\nalpha\n\\subsection{B}\nbeta".toList)) rfl
  have hp : secPathD [0] d = true := by
    have h2 : (structuredParse ("\\section{A}\nalpha\n\\subsection{B}\nbeta".toList)
        ).toOption.map (secPathD [0]) = some true := rfl
    rw [hd] at h2
    rw [show (Except.ok (ε := PErr) d).toOption = some d from rfl, Option.map_some'] at h2
    exact Option.some.inj h2
  refine ⟨d, hd, (c4_nesting_preservation d [0] ("fresh".toList) hp).1, ?_⟩
  have h3 : (structuredParse ("\\section{A}\nalpha\n\\subsection{B}\nbeta".toList)
      ).toOption.map (fun d => ((childrenAtD [0] d).filter Node.isSec).map Node.headerOf) =
      some ["\\subsection{B}".toList] := rfl
  rw [hd] at h3
  rw [show (Except.ok (ε := PErr) d).toOption = some d from rfl, Option.map_some'] at h3
  exact Option.some.inj h3

/-- C5: concrete scenario A: parsing the sample input, replacing the body
of the Section named Experience (located by the documented first-match
default) with "New text", and serializing produces exactly the expected
output bytes. -/
theorem c5_scenario_a :
    ((structuredParse sampleA).toOption.bind fun d =>
      (firstPathByName d ("Experience".toList)).map fun p =>
        serializeDoc (replaceDoc p ("New text".toList) d)) = some sampleAOut := rfl

/-- C6: the structured parse of the scenario-B input (unterminated group)
fails with a StructuralError of kind UnbalancedGroup; structural errors
can only be of the kinds UnbalancedGroup and UnterminatedEnvironment; a
parse can only succeed on a token stream whose groups and environments are
balanced (so an input containing an unterminated group or environment
never yields a tree); and on any parse failure the pipeline falls back to
the Template Reconstruction Path instead of aborting. -/
theorem c6_structural_error_fallback :
    (structuredParse sampleB =
      .error (.structE ⟨.unbalancedGroup⟩)) ∧
    (∀ e : StructuralError,
      e.kind = .unbalancedGroup ∨ e.kind = .unterminatedEnvironment) ∧
    (∀ (x : List Char) (ts : List Tok) (d : Doc), lex 0 x = .ok ts →
      parseDoc ts = .ok d → gbal ts = 0 ∧ ebal ts = 0) ∧
    (∀ (x gen : List Char) (e : PErr), structuredParse x = .error e →
      pipeline x gen = serializeDoc (replaceDoc [0] gen templateDoc)) := by
  refine ⟨rfl, ?_, ?_, ?_⟩
  · intro e
    obtain ⟨k⟩ := e
    cases k
    · exact Or.inl rfl
    · exact Or.inr rfl
  · intro x ts d _ hd
    obtain ⟨-, -, h3, h4⟩ := parseDoc_spec ts d hd
    exact ⟨h3, h4⟩
  · intro x gen e h
    simp [pipeline, h]

theorem c6_structural_error_fallback_witness :
    pipeline sampleB ("Generated letter text".toList) =
      serializeDoc (replaceDoc [0] ("Generated letter text".toList) templateDoc) :=
  c6_structural_error_fallback.2.2.2 sampleB ("Generated letter text".toList)
    (.structE ⟨.unbalancedGroup⟩) c6_structural_error_fallback.1

/-- C7: the Tokenizer fails exactly on an unterminated escape at
end-of-input: every lexical error means the input's final character is a
bare backslash and is reported at that final position; any input not
ending in a backslash is tokenized successfully (in particular a comment
reaching end-of-input without a newline is not an error); and every
comment token spans from its marker to end-of-line, containing no interior
newline and ending with the line terminator itself unless it is the final
token of the stream. -/
theorem c7_lex_errors :
    (∀ (cs : List Char) (e : LexError), lex 0 cs = .error e →
      cs.getLast? = some '\\' ∧ e.pos + 1 = cs.length ∧
        e.reason = "unterminated escape at end of input") ∧
    (∀ cs : List Char, cs.getLast? ≠ some '\\' → ∃ ts, lex 0 cs = .ok ts) ∧
    (∀ (cs : List Char) (ts : List Tok), lex 0 cs = .ok ts →
      ∀ (pre : List Tok) (t : Tok) (post : List Tok), ts = pre ++ t :: post →
        t.isComment = true →
        commentSpanOk t.raw ∧ (post ≠ [] → t.raw.getLast? = some '\n')) := by
  refine ⟨?_, ?_, ?_⟩
  · intro cs e h
    have hres := lexGo_error_char (cs.length + 1) 0 cs e (by omega) h
    obtain ⟨h1, h2, h3⟩ := hres
    exact ⟨h1, by omega, h3⟩
  · intro cs hne
    match hres : lex 0 cs with
    | .ok ts => exact ⟨ts, rfl⟩
    | .error e =>
      obtain ⟨h1, -⟩ := lexGo_error_char (cs.length + 1) 0 cs e (by omega) hres
      exact absurd h1 hne
  · intro cs ts h
    exact lexGo_comment_spans (cs.length + 1) 0 cs ts h

theorem c7_lex_errors_witness :
    ("ab\\".toList).getLast? = some '\\' ∧
      (∃ ts, lex 0 ("% note to end of input".toList) = .ok ts) :=
  ⟨(c7_lex_errors.1 ("ab\\".toList)
      ⟨2, "unterminated escape at end of input"⟩ rfl).1,
   c7_lex_errors.2.1 ("% note to end of input".toList) (by decide)⟩

/-- C8: `findByName` returns exactly the Sections whose normalized titles
match the query under case-insensitive, whitespace-normalized comparison,
in document order (the filtered document-order Section list); duplicate
names are not an error — on the duplicate-names sample both Skills
sections are returned, in document order; and repeated runs on the same
input return the same list, so the first-match default is deterministic. -/
theorem c8_find_by_name :
    (∀ (d : Doc) (nm : List Char),
      findByName d nm = (sectionsInOrder d).filter
        (fun m => normalizeName m.titleOf = normalizeName nm)) ∧
    ((structuredParse sampleDup).toOption.map
        (fun d => (findByName d ("Skills".toList)).map serializeNode) =
      some ["\\section{Skills}\nA\n".toList, "\\section{Skills}\nB".toList]) ∧
    (∀ (x nm : List Char) (d d' : Doc), structuredParse x = .ok d →
      structuredParse x = .ok d' → findByName d nm = findByName d' nm) := by
  refine ⟨findByName_eq, rfl, ?_⟩
  intro x nm d d' h h'
  rw [h] at h'
  rw [Except.ok.inj h']

theorem c8_find_by_name_witness :
    ∃ d, structuredParse sampleDup = Except.ok d ∧
      findByName d ("Skills".toList) = findByName d ("Skills".toList) ∧
      findByName d ("Skills".toList) = (sectionsInOrder d).filter
        (fun m => normalizeName m.titleOf = normalizeName ("Skills".toList)) := by
  obtain ⟨d, hd⟩ := exists_ok (structuredParse sampleDup) rfl
  exact ⟨d, hd, c8_find_by_name.2.2 sampleDup ("Skills".toList) d d hd hd,
    c8_find_by_name.1 d ("Skills".toList)⟩

/-- C9 counterexample: with no resume files selected, `handleSubmit` does
not leave all other form state unchanged — it clears a previously set
job-description error message (it resets all three error fields before
validating). -/
theorem c9_counterexample :
    (handleSubmit emptyResumeState).1.jobDescError ≠
      emptyResumeState.jobDescError := by
  decide

/-- C9 (amended): when no resume file is selected, `handleSubmit` sets the
resume error message "Please upload at least one resume file." and returns
without issuing any HTTP request and without entering the loading state;
the input fields, the loading flag and the upload progress are unchanged,
and the only other change is that the job-description and general form
error messages are cleared to none (they are reset before validation). -/
theorem c9_empty_resume (s : FormState) (h : s.resumeFiles = []) :
    (handleSubmit s).2 = [] ∧
    (handleSubmit s).1.resumeError = some resumeErrMsg ∧
    (handleSubmit s).1.loading = s.loading ∧
    (handleSubmit s).1.uploadProgress = s.uploadProgress ∧
    (handleSubmit s).1.resumeFiles = s.resumeFiles ∧
    (handleSubmit s).1.jobDescText = s.jobDescText ∧
    (handleSubmit s).1.jobDescFiles = s.jobDescFiles ∧
    (handleSubmit s).1.jobDescUrl = s.jobDescUrl ∧
    (handleSubmit s).1.expFiles = s.expFiles ∧
    (handleSubmit s).1.readmeFiles = s.readmeFiles ∧
    (handleSubmit s).1.jobDescError = none ∧
    (handleSubmit s).1.formError = none := by
  simp [handleSubmit, h]

theorem c9_empty_resume_witness :
    (handleSubmit emptyResumeState).2 = [] ∧
      (handleSubmit emptyResumeState).1.resumeError = some resumeErrMsg :=
  ⟨(c9_empty_resume emptyResumeState rfl).1,
   (c9_empty_resume emptyResumeState rfl).2.1⟩

theorem filter_keyed (k k' : String) (l : List String) :
    (((l.map (fun r => (k, r))).filter (fun e => e.1 == k')).map Prod.snd) =
      if k == k' then l else [] := by
  induction l with
  | nil => by_cases h : k == k' <;> simp [h]
  | cons a l ih =>
    by_cases h : (k == k') = true
    · simpa [List.filter_cons, h] using ih
    · simpa [List.filter_cons, h] using ih

/-- C10: on a submission with at least one resume file and one or more
job-description files (and, as the earlier single-JD-mode guard then
requires, no JD text and no JD URL), `handleSubmit` dispatches exactly one
request: the multipart submission whose form contains every resume file
under `resume_files`, only the FIRST job-description file under `jd_file`
— the remaining JD files are omitted, silently: no JD error is set —
every experience file under `exp_files` and every readme file under
`readme_files`. -/
theorem c10_jd_first_file_only (s : FormState) (f : String) (fs : List String)
    (hres : s.resumeFiles ≠ []) (hjd : s.jobDescFiles = f :: fs)
    (hurl : s.jobDescUrl = "") (htxt : s.jobDescText = "") :
    (handleSubmit s).2 = [Request.submit (submittedForm s f)] ∧
    ((submittedForm s f).filter (fun e => e.1 == "jd_file")).map Prod.snd = [f] ∧
    ((submittedForm s f).filter (fun e => e.1 == "resume_files")).map Prod.snd =
      s.resumeFiles ∧
    ((submittedForm s f).filter (fun e => e.1 == "exp_files")).map Prod.snd =
      s.expFiles ∧
    ((submittedForm s f).filter (fun e => e.1 == "readme_files")).map Prod.snd =
      s.readmeFiles ∧
    (handleSubmit s).1.jobDescError = none := by
  have hlen : ¬s.resumeFiles.length = 0 := by
    intro h0
    exact hres (List.length_eq_zero.mp h0)
  have hie : ("" : String).isEmpty = true := rfl
  refine ⟨?_, ?_, ?_, ?_, ?_, ?_⟩
  · simp [handleSubmit, hlen, hjd, hurl, htxt, submittedForm, hie, List.filter_cons]
  · simp only [submittedForm, List.filter_append, List.filter_cons, List.map_append,
      filter_keyed]
    simp [filter_keyed]
  · simp only [submittedForm, List.filter_append, List.filter_cons, List.map_append,
      filter_keyed]
    simp [filter_keyed]
  · simp only [submittedForm, List.filter_append, List.filter_cons, List.map_append,
      filter_keyed]
    simp [filter_keyed]
  · simp only [submittedForm, List.filter_append, List.filter_cons, List.map_append,
      filter_keyed]
    simp [filter_keyed]
  · simp [handleSubmit, hlen, hjd, hurl, htxt, hie, List.filter_cons]

theorem c10_jd_first_file_only_witness :
    (handleSubmit twoJdState).2 = [Request.submit
      [("resume_files", "resume1.tex"), ("resume_files", "resume2.pdf"),
       ("jd_file", "jd1.pdf"), ("exp_files", "exp.pdf"),
       ("readme_files", "readme.md")]] := by
  have h := c10_jd_first_file_only twoJdState "jd1.pdf" ["jd2.pdf"]
    (by decide) rfl rfl rfl
  rw [h.1]
  rfl

end Berozgar
